import Mathlib

/-!
Shallow embedding of `src/polynomial/src/lib.rs` (crate `polynomial`):
a univariate polynomial over a generic numeric scalar, stored as the list
of coefficients `coefs_` (index `i` is the coefficient of `x^i`).

Rust `Vec<T>` is modelled as `List T`; the `Num + Default + ...` trait
bounds are modelled as `CommRing`/`Field` together with `DecidableEq`
(`T::default()` is the scalar zero for the numeric types the crate is
used at); Rust `String` (used only by the `Debug` impl) is modelled as
`List Char`.
-/

namespace Pimbook

structure Polynomial (T : Type) where
  coefs_ : List T
deriving DecidableEq

namespace Polynomial

variable {T : Type}

/-- The counting loop of `Polynomial::new` (lib.rs lines 22-34): walk the
reversed coefficient list, counting zero elements, but stop (without
counting) at a nonzero element or when only one element of the whole list
remains (`c_it.peek().is_none()` after `next`). -/
def cntTrailing [Zero T] [DecidableEq T] : List T → Nat
  | [] => 0
  | [_] => 0
  | x :: y :: rest => if x ≠ 0 then 0 else cntTrailing (y :: rest) + 1

/-- `Polynomial::new` (lib.rs lines 20-40): count trailing zeros of the
coefficient vector (the loop walks `coefs_.iter().rev()`), then keep the
first `len - cnt` coefficients (`coefs.drain(..(coefs.len() - cnt))`). -/
def new [Zero T] [DecidableEq T] (coefs : List T) : Polynomial T :=
  let cnt := cntTrailing coefs.reverse
  ⟨coefs.take (coefs.length - cnt)⟩

/-- `Polynomial::add` (lib.rs lines 72-91): position `i` of the raw result
is `self.coefs_[i] + other.coefs_[i]`, a missing coefficient read as the
scalar zero, for `i` below `max` of the lengths; the raw vector is passed
through `new`. -/
def add [CommRing T] [DecidableEq T] (self other : Polynomial T) : Polynomial T :=
  let max_len := max self.coefs_.length other.coefs_.length
  new ((List.range max_len).map (fun i => self.coefs_.getD i 0 + other.coefs_.getD i 0))

/-- `Polynomial::mul` (lib.rs lines 93-103): start from a zero vector of
length `len(self) + len(other) - 1`, accumulate `self[i] * other[j]` at
position `i + j` over both index ranges, then pass through `new`. -/
def mul [CommRing T] [DecidableEq T] (self other : Polynomial T) : Polynomial T :=
  let res_coefs := List.replicate (self.coefs_.length + other.coefs_.length - 1) (0 : T)
  let res := (List.range self.coefs_.length).foldl (fun res i =>
    (List.range other.coefs_.length).foldl (fun res j =>
      res.set (i + j) (res.getD (i + j) 0 + self.coefs_.getD i 0 * other.coefs_.getD j 0))
      res) res_coefs
  new res

/-- `Polynomial::eval_at` (lib.rs lines 105-116), Horner's method: fold over
the reversed coefficients with `sum = sum * x + coef`, starting from zero. -/
def eval_at [CommRing T] (self : Polynomial T) (x : T) : T :=
  self.coefs_.reverse.foldl (fun sum coef => sum * x + coef) 0

/-- `Polynomial::single_term_poly` (lib.rs lines 42-59): the Lagrange basis
term for the point at `idx`, built by multiplying `new [1]` by the linear
factor `new [-xj / (xi - xj), 1 / (xi - xj)]` for every other index `j`,
then by the constant `new [yi]`. -/
def single_term_poly [Field T] [DecidableEq T] (points : List (T × T)) (idx : Nat) :
    Polynomial T :=
  let xi := (points.getD idx (0, 0)).1
  let yi := (points.getD idx (0, 0)).2
  let term := (List.range points.length).foldl (fun term j =>
    if j = idx then term
    else
      let xj := (points.getD j (0, 0)).1
      term.mul (new [-xj / (xi - xj), 1 / (xi - xj)])) (new [1])
  term.mul (new [yi])

/-- `Polynomial::interpolate_from` (lib.rs lines 61-70): build one
`single_term_poly` per point index and fold them with `add`, starting from
`new [T::default()]`, the zero polynomial. -/
def interpolate_from [Field T] [DecidableEq T] (points : List (T × T)) : Polynomial T :=
  let terms := (List.range points.length).map (fun idx => single_term_poly points idx)
  terms.foldl (fun acc x => acc.add x) (new [0])

/-- The normal-form invariant of §3 of the design: the coefficient list is
non-empty and either its last element is nonzero or it is exactly `[0]`. -/
def normalized [Zero T] [DecidableEq T] (p : Polynomial T) : Prop :=
  p.coefs_ ≠ [] ∧ (p.coefs_.getLast? ≠ some 0 ∨ p.coefs_ = [0])

instance [Zero T] [DecidableEq T] (p : Polynomial T) : Decidable (normalized p) := by
  unfold normalized
  infer_instance

/-- One step of `str.trim_end_matches(pat)` from the `Debug` impl, with
explicit fuel (Rust's loop removes the suffix `pat` as long as it is
present; each removal shortens the string, so `s.length` is enough fuel). -/
def trimEndMatchesAux (pat : List Char) : Nat → List Char → List Char
  | 0, s => s
  | fuel + 1, s =>
    if pat.isSuffixOf s then trimEndMatchesAux pat fuel (s.take (s.length - pat.length))
    else s

/-- Rust `str::trim_end_matches` on the `List Char` model of `String`. -/
def trimEndMatches (pat s : List Char) : List Char :=
  trimEndMatchesAux pat s.length s

/-- The `Debug` impl for `Polynomial` (lib.rs lines 119-128): start from
`"Poly: "`, append `"({coef}x^{pow}) + "` for every coefficient (`f`
renders a scalar, as Rust's `Display` does), and trim the trailing
`" + "` separators.  Rust `String` is modelled as `List Char`. -/
def rustDebugFmt (f : T → List Char) (p : Polynomial T) : List Char :=
  let poly_str := "Poly: ".toList ++
    (p.coefs_.enum.map (fun pc =>
      "(".toList ++ f pc.2 ++ "x^".toList ++ (toString pc.1).toList ++ ")".toList ++
        " + ".toList)).flatten
  trimEndMatches " + ".toList poly_str

end Polynomial

/-- Reference (naive) evaluation of a coefficient list at `x`:
`c_0 + x * (c_1 + x * (...))`, i.e. `∑ i, c_i * x^i`. -/
def evalList [CommRing T] : List T → T → T
  | [], _ => 0
  | c :: cs, x => c + x * evalList cs x

end Pimbook

section Sanity

open Pimbook Pimbook.Polynomial

example : (new [(0 : ℚ), 1, 2, 3, 0, 0]).coefs_ = [0, 1, 2, 3] := by decide
example : (new [(0 : ℚ), 0, 0]).coefs_ = [0] := by decide
example : (new ([] : List ℚ)).coefs_ = [] := by decide
example : ((new [(0 : ℤ), 1, 2]).add (new [1, 2, 3])).coefs_ = [1, 3, 5] := by decide
example : ((new [(1 : ℤ), 2, 3]).mul (new [1, 2, 3])).coefs_ = [1, 4, 10, 12, 9] := by decide
example : (new [(1 : ℤ), 2, 3]).eval_at 8 = 209 := by decide

end Sanity

namespace Pimbook

namespace Polynomial

variable {T : Type}

section Normalization

theorem cntTrailing_le [Zero T] [DecidableEq T] : ∀ l : List T, cntTrailing l ≤ l.length
  | [] => by simp [cntTrailing]
  | [_] => by simp [cntTrailing]
  | x :: y :: rest => by
    by_cases hx : x = 0
    · have ih := cntTrailing_le (y :: rest)
      simp only [cntTrailing, hx, ne_eq, not_true_eq_false, if_false, List.length_cons] at ih ⊢
      omega
    · simp [cntTrailing, hx]

theorem cntTrailing_lt [Zero T] [DecidableEq T] : ∀ l : List T, l ≠ [] → cntTrailing l < l.length
  | [_], _ => by simp [cntTrailing]
  | x :: y :: rest, _ => by
    by_cases hx : x = 0
    · have ih := cntTrailing_lt (y :: rest) (by simp)
      simp only [cntTrailing, hx, ne_eq, not_true_eq_false, if_false, List.length_cons] at ih ⊢
      omega
    · simp [cntTrailing, hx]

/-- Every element the counting loop of `new` decides to drop is a zero. -/
theorem take_cntTrailing_zero [Zero T] [DecidableEq T] :
    ∀ l : List T, ∀ c ∈ l.take (cntTrailing l), c = 0
  | [] => by simp [cntTrailing]
  | [_] => by simp [cntTrailing]
  | x :: y :: rest => by
    by_cases hx : x = 0
    · have ih := take_cntTrailing_zero (y :: rest)
      simp only [cntTrailing, hx, ne_eq, not_true_eq_false, if_false, List.take_succ_cons]
      intro c hc
      rcases List.mem_cons.1 hc with hc | hc
      · simp [hc, hx]
      · exact ih c hc
    · simp [cntTrailing, hx]

/-- What remains after the counting loop: non-empty, and its first element
(the last coefficient kept) is nonzero unless the whole remainder is `[0]`. -/
theorem drop_cntTrailing_spec [Zero T] [DecidableEq T] :
    ∀ l : List T, l ≠ [] →
      l.drop (cntTrailing l) ≠ [] ∧
        ((l.drop (cntTrailing l)).head? ≠ some 0 ∨ l.drop (cntTrailing l) = [0])
  | [x], _ => by
    by_cases hx : x = 0
    · subst hx
      simp [cntTrailing]
    · simp [cntTrailing, hx]
  | x :: y :: rest, _ => by
    by_cases hx : x = 0
    · have ih := drop_cntTrailing_spec (y :: rest) (by simp)
      simp only [cntTrailing, hx, ne_eq, not_true_eq_false, if_false, List.drop_succ_cons]
      exact ih
    · simp [cntTrailing, hx]

theorem new_coefs [Zero T] [DecidableEq T] (cs : List T) :
    (new cs).coefs_ = cs.take (cs.length - cntTrailing cs.reverse) := rfl

theorem new_coefs_reverse [Zero T] [DecidableEq T] (cs : List T) :
    (new cs).coefs_.reverse = cs.reverse.drop (cntTrailing cs.reverse) := by
  have hle : cntTrailing cs.reverse ≤ cs.length := by
    have h := cntTrailing_le cs.reverse
    simpa using h
  rw [new_coefs, List.reverse_take]
  congr 1
  omega

/-- §4.1 of the design: `new` of a non-empty coefficient list satisfies the
normal-form invariant. -/
theorem new_normalized [Zero T] [DecidableEq T] (cs : List T) (h : cs ≠ []) :
    normalized (new cs) := by
  have hrev : cs.reverse ≠ [] := by simpa using h
  obtain ⟨h1, h2⟩ := drop_cntTrailing_spec cs.reverse hrev
  rw [← new_coefs_reverse] at h1 h2
  constructor
  · intro hnil
    rw [hnil] at h1
    simp at h1
  · rcases h2 with h2 | h2
    · left
      rw [← List.head?_reverse]
      exact h2
    · right
      have h3 := congrArg List.reverse h2
      simpa using h3

theorem cntTrailing_all_zero [Zero T] [DecidableEq T] :
    ∀ l : List T, (∀ c ∈ l, c = 0) → cntTrailing l = l.length - 1
  | [] => by simp [cntTrailing]
  | [_] => by simp [cntTrailing]
  | x :: y :: rest => by
    intro hz
    have hx : x = 0 := hz x (List.mem_cons_self x _)
    have ih := cntTrailing_all_zero (y :: rest) (fun c hc => hz c (List.mem_cons_of_mem x hc))
    simp only [cntTrailing, hx, ne_eq, not_true_eq_false, if_false, List.length_cons] at ih ⊢
    omega

/-- §8 of the design (zero-polynomial canonical form): `new` of a non-empty
all-zero list is the one-element zero polynomial. -/
theorem new_all_zero [Zero T] [DecidableEq T] (cs : List T) (h : cs ≠ [])
    (hz : ∀ c ∈ cs, c = 0) : new cs = ⟨[0]⟩ := by
  match cs, h with
  | c :: t, _ =>
    have hcnt : cntTrailing (c :: t).reverse = (c :: t).length - 1 := by
      rw [cntTrailing_all_zero (c :: t).reverse (fun a ha => hz a (List.mem_reverse.1 ha))]
      simp
    have hone : (c :: t).length - cntTrailing (c :: t).reverse = 1 := by
      rw [hcnt]
      simp
    have h1 : new (c :: t) = ⟨(c :: t).take 1⟩ := by
      rw [Polynomial.mk.injEq, new_coefs, hone]
    rw [h1]
    have hc : c = 0 := hz c (List.mem_cons_self c t)
    simp [hc]

theorem new_singleton [Zero T] [DecidableEq T] (c : T) : new [c] = ⟨[c]⟩ := rfl

end Normalization

end Polynomial

end Pimbook

namespace Pimbook

namespace Polynomial

variable {T : Type}

section Evaluation

theorem evalList_cons [CommRing T] (c : T) (cs : List T) (x : T) :
    evalList (c :: cs) x = c + x * evalList cs x := rfl

/-- Horner's loop in `eval_at` computes the reference polynomial value. -/
theorem eval_at_eq_evalList [CommRing T] (p : Polynomial T) (x : T) :
    p.eval_at x = evalList p.coefs_ x := by
  obtain ⟨l⟩ := p
  show l.reverse.foldl (fun sum coef => sum * x + coef) 0 = evalList l x
  induction l with
  | nil => rfl
  | cons c cs ih =>
    rw [List.reverse_cons, List.foldl_append]
    simp only [List.foldl_cons, List.foldl_nil]
    rw [ih, evalList_cons]
    ring

theorem evalList_eq_sum [CommRing T] (l : List T) (x : T) :
    evalList l x = ∑ i ∈ Finset.range l.length, l.getD i 0 * x ^ i := by
  induction l with
  | nil => simp [evalList]
  | cons c cs ih =>
    rw [evalList_cons, ih, List.length_cons, Finset.sum_range_succ']
    simp only [List.getD_cons_succ, List.getD_cons_zero, pow_zero, mul_one, pow_succ]
    rw [Finset.mul_sum, add_comm]
    congr 1
    exact Finset.sum_congr rfl fun i _ => by ring

theorem sum_range_evalList [CommRing T] (l : List T) (x : T) {N : ℕ} (h : l.length ≤ N) :
    ∑ i ∈ Finset.range N, l.getD i 0 * x ^ i = evalList l x := by
  rw [evalList_eq_sum]
  symm
  apply Finset.sum_subset (Finset.range_subset.2 h)
  intro i _ hi
  rw [List.getD_eq_default _ _ (Nat.le_of_not_lt (by simpa using hi))]
  ring

theorem evalList_append [CommRing T] (l₁ l₂ : List T) (x : T) :
    evalList (l₁ ++ l₂) x = evalList l₁ x + x ^ l₁.length * evalList l₂ x := by
  induction l₁ with
  | nil => simp [evalList]
  | cons c cs ih =>
    simp only [List.cons_append, evalList_cons, ih, List.length_cons]
    ring

theorem evalList_all_zero [CommRing T] (l : List T) (h : ∀ c ∈ l, c = 0) (x : T) :
    evalList l x = 0 := by
  induction l with
  | nil => rfl
  | cons c cs ih =>
    rw [evalList_cons, h c (List.mem_cons_self c cs),
      ih fun a ha => h a (List.mem_cons_of_mem c ha)]
    ring

/-- Trimming trailing zeros (the constructor `new`) does not change the value. -/
theorem evalList_new [CommRing T] [DecidableEq T] (cs : List T) (x : T) :
    evalList (new cs).coefs_ x = evalList cs x := by
  set k := cs.length - cntTrailing cs.reverse with hk
  have hle : cntTrailing cs.reverse ≤ cs.length := by simpa using cntTrailing_le cs.reverse
  have hdropz : ∀ c ∈ cs.drop k, c = 0 := by
    intro c hc
    have hc2 : c ∈ (cs.drop k).reverse := List.mem_reverse.2 hc
    rw [List.reverse_drop] at hc2
    have hcnt : cs.length - k = cntTrailing cs.reverse := by omega
    rw [hcnt] at hc2
    exact take_cntTrailing_zero cs.reverse c hc2
  have hsplit : cs = cs.take k ++ cs.drop k := (List.take_append_drop k cs).symm
  conv_rhs => rw [hsplit]
  rw [evalList_append, evalList_all_zero _ hdropz, new_coefs, ← hk]
  ring

theorem getD_map_range [Zero T] (f : ℕ → T) (n i : ℕ) (h : i < n) :
    ((List.range n).map f).getD i 0 = f i := by
  rw [List.getD_eq_getElem?_getD, List.getElem?_map, List.getElem?_range h]
  rfl

theorem add_def [CommRing T] [DecidableEq T] (p q : Polynomial T) :
    p.add q = new ((List.range (max p.coefs_.length q.coefs_.length)).map
      (fun i => p.coefs_.getD i 0 + q.coefs_.getD i 0)) := rfl

/-- Evaluation is additive over `add` (§4.2). -/
theorem evalList_add_poly [CommRing T] [DecidableEq T] (p q : Polynomial T) (x : T) :
    evalList (p.add q).coefs_ x = evalList p.coefs_ x + evalList q.coefs_ x := by
  rw [add_def, evalList_new, evalList_eq_sum, List.length_map, List.length_range]
  have h1 : ∀ i ∈ Finset.range (max p.coefs_.length q.coefs_.length),
      ((List.range (max p.coefs_.length q.coefs_.length)).map
        (fun i => p.coefs_.getD i 0 + q.coefs_.getD i 0)).getD i 0 * x ^ i
      = p.coefs_.getD i 0 * x ^ i + q.coefs_.getD i 0 * x ^ i := by
    intro i hi
    rw [getD_map_range _ _ _ (Finset.mem_range.1 hi)]
    ring
  rw [Finset.sum_congr rfl h1, Finset.sum_add_distrib,
    sum_range_evalList _ _ (le_max_left _ _), sum_range_evalList _ _ (le_max_right _ _)]

end Evaluation

end Polynomial

end Pimbook

namespace Pimbook

namespace Polynomial

variable {T : Type}

section Convolution

/-- One accumulation pass `for k in 0..n { res[pos k] += w k }` keeps the
vector length. -/
theorem accLoop_length [CommRing T] (pos : ℕ → ℕ) (w : ℕ → T) :
    ∀ (n : ℕ) (res : List T),
      ((List.range n).foldl (fun r k => r.set (pos k) (r.getD (pos k) 0 + w k)) res).length
        = res.length
  | 0, _ => rfl
  | n + 1, res => by
    rw [List.range_succ, List.foldl_append]
    simp only [List.foldl_cons, List.foldl_nil]
    rw [List.length_set]
    exact accLoop_length pos w n res

/-- Entry `m` after the pass `for k in 0..n { res[pos k] += w k }`, when every
write lands in bounds: the old entry plus all the `w k` written at `m`. -/
theorem accLoop_getD [CommRing T] (pos : ℕ → ℕ) (w : ℕ → T) :
    ∀ (n : ℕ) (res : List T), (∀ k, k < n → pos k < res.length) → ∀ m : ℕ,
      ((List.range n).foldl (fun r k => r.set (pos k) (r.getD (pos k) 0 + w k)) res).getD m 0
        = res.getD m 0 + ∑ k ∈ Finset.range n, if pos k = m then w k else 0
  | 0, res, _, m => by simp
  | n + 1, res, hpos, m => by
    rw [List.range_succ, List.foldl_append]
    simp only [List.foldl_cons, List.foldl_nil]
    set prev := (List.range n).foldl (fun r k => r.set (pos k) (r.getD (pos k) 0 + w k)) res
      with hprev
    have hlen : prev.length = res.length := accLoop_length pos w n res
    have ih := accLoop_getD pos w n res (fun k hk => hpos k (Nat.lt_succ_of_lt hk))
    rw [← hprev] at ih
    rw [Finset.sum_range_succ]
    by_cases hm : pos n = m
    · subst hm
      rw [List.getD_eq_getElem?_getD, List.getElem?_set, if_pos rfl,
        if_pos (by rw [hlen]; exact hpos n (Nat.lt_succ_self n))]
      simp only [Option.getD_some]
      rw [ih (pos n)]
      simp only [if_true, eq_self_iff_true]
      ring
    · rw [List.getD_eq_getElem?_getD, List.getElem?_set, if_neg hm,
        ← List.getD_eq_getElem?_getD, ih m, if_neg hm]
      ring

/-- The double loop of `mul` keeps the vector length. -/
theorem mulOuter_length [CommRing T] (a b : List T) :
    ∀ (n : ℕ) (res : List T),
      ((List.range n).foldl (fun r i => (List.range b.length).foldl
        (fun r j => r.set (i + j) (r.getD (i + j) 0 + a.getD i 0 * b.getD j 0)) r) res).length
        = res.length
  | 0, _ => rfl
  | n + 1, res => by
    rw [List.range_succ, List.foldl_append]
    simp only [List.foldl_cons, List.foldl_nil]
    rw [accLoop_length (fun j => n + j) (fun j => a.getD n 0 * b.getD j 0)]
    exact mulOuter_length a b n res

/-- Entry `m` after the double loop of `mul`: the convolution sum
`∑ i < n, ∑ j < len b, [i + j = m] a i * b j` on top of the old entry. -/
theorem mulOuter_getD [CommRing T] (a b : List T) :
    ∀ (n : ℕ) (res : List T), res.length = a.length + b.length - 1 → n ≤ a.length → ∀ m : ℕ,
      ((List.range n).foldl (fun r i => (List.range b.length).foldl
        (fun r j => r.set (i + j) (r.getD (i + j) 0 + a.getD i 0 * b.getD j 0)) r) res).getD m 0
        = res.getD m 0 + ∑ i ∈ Finset.range n, ∑ j ∈ Finset.range b.length,
            if i + j = m then a.getD i 0 * b.getD j 0 else 0
  | 0, res, _, _, m => by simp
  | n + 1, res, hres, hn, m => by
    rw [List.range_succ, List.foldl_append]
    simp only [List.foldl_cons, List.foldl_nil]
    set prev := (List.range n).foldl (fun r i => (List.range b.length).foldl
      (fun r j => r.set (i + j) (r.getD (i + j) 0 + a.getD i 0 * b.getD j 0)) r) res with hprev
    have hlen : prev.length = res.length := mulOuter_length a b n res
    have ih := mulOuter_getD a b n res hres (Nat.le_of_succ_le hn) m
    rw [← hprev] at ih
    have hpos : ∀ k, k < b.length → n + k < prev.length := by
      intro k hk
      rw [hlen, hres]
      omega
    rw [accLoop_getD (fun j => n + j) (fun j => a.getD n 0 * b.getD j 0) b.length prev hpos m,
      ih, Finset.sum_range_succ]
    ring

theorem mul_def [CommRing T] [DecidableEq T] (p q : Polynomial T) :
    p.mul q = new ((List.range p.coefs_.length).foldl (fun r i =>
      (List.range q.coefs_.length).foldl
        (fun r j => r.set (i + j) (r.getD (i + j) 0 + p.coefs_.getD i 0 * q.coefs_.getD j 0)) r)
      (List.replicate (p.coefs_.length + q.coefs_.length - 1) (0 : T))) := rfl

theorem getD_replicate_zero [Zero T] (n m : ℕ) :
    (List.replicate n (0 : T)).getD m 0 = 0 := by
  rw [List.getD_eq_getElem?_getD, List.getElem?_replicate]
  by_cases h : m < n <;> simp [h]

/-- Evaluation is multiplicative over the convolution `mul` (§4.3). -/
theorem evalList_mul_poly [CommRing T] [DecidableEq T] (p q : Polynomial T) (x : T) :
    evalList (p.mul q).coefs_ x = evalList p.coefs_ x * evalList q.coefs_ x := by
  set a := p.coefs_ with ha
  set b := q.coefs_ with hb
  set M := a.length + b.length - 1 with hM
  have hraw : ∀ m : ℕ,
      ((List.range a.length).foldl (fun r i => (List.range b.length).foldl
        (fun r j => r.set (i + j) (r.getD (i + j) 0 + a.getD i 0 * b.getD j 0)) r)
        (List.replicate M (0 : T))).getD m 0
      = ∑ i ∈ Finset.range a.length, ∑ j ∈ Finset.range b.length,
          if i + j = m then a.getD i 0 * b.getD j 0 else 0 := by
    intro m
    rw [mulOuter_getD a b a.length (List.replicate M (0 : T))
      (by rw [List.length_replicate, hM]) (Nat.le_refl _) m, getD_replicate_zero]
    ring
  have hlenraw : ((List.range a.length).foldl (fun r i => (List.range b.length).foldl
      (fun r j => r.set (i + j) (r.getD (i + j) 0 + a.getD i 0 * b.getD j 0)) r)
      (List.replicate M (0 : T))).length = M := by
    rw [mulOuter_length, List.length_replicate]
  rw [mul_def, evalList_new, evalList_eq_sum, hlenraw]
  have hstep : ∀ m ∈ Finset.range M,
      ((List.range a.length).foldl (fun r i => (List.range b.length).foldl
        (fun r j => r.set (i + j) (r.getD (i + j) 0 + a.getD i 0 * b.getD j 0)) r)
        (List.replicate M (0 : T))).getD m 0 * x ^ m
      = ∑ i ∈ Finset.range a.length, ∑ j ∈ Finset.range b.length,
          if i + j = m then a.getD i 0 * x ^ i * (b.getD j 0 * x ^ j) else 0 := by
    intro m hm
    rw [hraw m, Finset.sum_mul]
    refine Finset.sum_congr rfl fun i _ => ?_
    rw [Finset.sum_mul]
    refine Finset.sum_congr rfl fun j _ => ?_
    rw [ite_mul, zero_mul]
    by_cases hij : i + j = m
    · rw [if_pos hij, if_pos hij, ← hij, pow_add]
      ring
    · rw [if_neg hij, if_neg hij]
  rw [Finset.sum_congr rfl hstep, Finset.sum_comm]
  have hswap : ∀ i ∈ Finset.range a.length,
      ∑ m ∈ Finset.range M, ∑ j ∈ Finset.range b.length,
        (if i + j = m then a.getD i 0 * x ^ i * (b.getD j 0 * x ^ j) else 0)
      = ∑ j ∈ Finset.range b.length, a.getD i 0 * x ^ i * (b.getD j 0 * x ^ j) := by
    intro i hi
    rw [Finset.sum_comm]
    refine Finset.sum_congr rfl fun j hj => ?_
    rw [Finset.sum_ite_eq]
    have hin : i + j ∈ Finset.range M := by
      rw [Finset.mem_range] at hi hj ⊢
      omega
    rw [if_pos hin]
  rw [Finset.sum_congr rfl hswap, evalList_eq_sum, evalList_eq_sum, Finset.sum_mul_sum]

end Convolution

end Polynomial

end Pimbook

namespace Pimbook

namespace Polynomial

variable {T : Type}

section Closure

theorem coefs_mk (l : List T) : (Polynomial.mk l).coefs_ = l := rfl

theorem getD_map_neg [CommRing T] (l : List T) (i : ℕ) :
    (l.map (fun c => -c)).getD i 0 = -l.getD i 0 := by
  rw [List.getD_eq_getElem?_getD, List.getD_eq_getElem?_getD, List.getElem?_map]
  cases l[i]? <;> simp

theorem getD_single_zero [Zero T] (j : ℕ) : ([(0 : T)]).getD j 0 = 0 := by
  cases j <;> simp

/-- `add` of polynomials with non-empty coefficient lists is normalized. -/
theorem add_normalized [CommRing T] [DecidableEq T] (p q : Polynomial T)
    (hp : p.coefs_ ≠ []) : normalized (p.add q) := by
  rw [add_def]
  apply new_normalized
  have hply : 0 < p.coefs_.length := List.length_pos.2 hp
  intro hnil
  have h0 := congrArg List.length hnil
  simp only [List.length_map, List.length_range, List.length_nil] at h0
  omega

/-- `mul` of polynomials with non-empty coefficient lists is normalized. -/
theorem mul_normalized [CommRing T] [DecidableEq T] (p q : Polynomial T)
    (hp : p.coefs_ ≠ []) (hq : q.coefs_ ≠ []) : normalized (p.mul q) := by
  rw [mul_def]
  apply new_normalized
  have h1 : 0 < p.coefs_.length := List.length_pos.2 hp
  have h2 : 0 < q.coefs_.length := List.length_pos.2 hq
  intro hnil
  have h0 := congrArg List.length hnil
  rw [mulOuter_length, List.length_replicate] at h0
  simp only [List.length_nil] at h0
  omega

theorem single_term_def [Field T] [DecidableEq T] (points : List (T × T)) (idx : ℕ) :
    single_term_poly points idx
      = ((List.range points.length).foldl (fun term j =>
          if j = idx then term
          else term.mul (new [-(points.getD j (0, 0)).1 /
              ((points.getD idx (0, 0)).1 - (points.getD j (0, 0)).1),
            1 / ((points.getD idx (0, 0)).1 - (points.getD j (0, 0)).1)]))
          (new [1])).mul (new [(points.getD idx (0, 0)).2]) := rfl

theorem interpolate_def [Field T] [DecidableEq T] (points : List (T × T)) :
    interpolate_from points
      = ((List.range points.length).map (fun idx => single_term_poly points idx)).foldl
          (fun acc x => acc.add x) (new [0]) := rfl

theorem termLoop_normalized [Field T] [DecidableEq T] (points : List (T × T)) (idx : ℕ) :
    ∀ (n : ℕ) (t : Polynomial T), normalized t →
      normalized ((List.range n).foldl (fun term j =>
        if j = idx then term
        else term.mul (new [-(points.getD j (0, 0)).1 /
            ((points.getD idx (0, 0)).1 - (points.getD j (0, 0)).1),
          1 / ((points.getD idx (0, 0)).1 - (points.getD j (0, 0)).1)])) t)
  | 0, _, ht => ht
  | n + 1, t, ht => by
    rw [List.range_succ, List.foldl_append]
    simp only [List.foldl_cons, List.foldl_nil]
    have ih := termLoop_normalized points idx n t ht
    by_cases hn : n = idx
    · rw [if_pos hn]
      exact ih
    · rw [if_neg hn]
      exact mul_normalized _ _ ih.1 (new_normalized _ (by simp)).1

theorem single_term_poly_normalized [Field T] [DecidableEq T] (points : List (T × T))
    (idx : ℕ) : normalized (single_term_poly points idx) := by
  rw [single_term_def]
  exact mul_normalized _ _
    (termLoop_normalized points idx points.length (new [1]) (new_normalized [1] (by simp))).1
    (new_normalized _ (by simp)).1

theorem foldl_add_normalized [CommRing T] [DecidableEq T] :
    ∀ (ts : List (Polynomial T)) (z : Polynomial T), normalized z →
      (∀ t ∈ ts, normalized t) → normalized (ts.foldl (fun acc x => acc.add x) z)
  | [], _, hz, _ => hz
  | t :: ts, z, hz, hts => by
    simp only [List.foldl_cons]
    exact foldl_add_normalized ts (z.add t) (add_normalized z t hz.1)
      fun u hu => hts u (List.mem_cons_of_mem t hu)

theorem interpolate_normalized [Field T] [DecidableEq T] (points : List (T × T)) :
    normalized (interpolate_from points) := by
  rw [interpolate_def]
  apply foldl_add_normalized
  · exact new_normalized [0] (by simp)
  · intro t ht
    obtain ⟨idx, _, rfl⟩ := List.mem_map.1 ht
    exact single_term_poly_normalized points idx

end Closure

section Claims

/-- C2: every `Polynomial` produced by `new` (non-empty input), `add`, `mul`,
or `interpolate_from` (non-empty points) satisfies the normal-form
invariant: non-empty coefficients, and either a nonzero last coefficient or
exactly the single-element zero sequence. -/
theorem c2_normal_form_invariant (K : Type) [Field K] [DecidableEq K] :
    (∀ cs : List K, cs ≠ [] → normalized (new cs)) ∧
    (∀ p q : Polynomial K, normalized p → normalized q → normalized (p.add q)) ∧
    (∀ p q : Polynomial K, normalized p → normalized q → normalized (p.mul q)) ∧
    (∀ points : List (K × K), points ≠ [] → normalized (interpolate_from points)) :=
  ⟨fun cs h => new_normalized cs h,
   fun p q hp _ => add_normalized p q hp.1,
   fun p q hp hq => mul_normalized p q hp.1 hq.1,
   fun points _ => interpolate_normalized points⟩

theorem c2_witness :
    normalized (new [(1 : ℚ), 0]) ∧
      normalized ((⟨[1]⟩ : Polynomial ℚ).add ⟨[2]⟩) ∧
      normalized ((⟨[1]⟩ : Polynomial ℚ).mul ⟨[2]⟩) ∧
      normalized (interpolate_from [((1 : ℚ), 2)]) :=
  ⟨(c2_normal_form_invariant ℚ).1 [1, 0] (by decide),
   (c2_normal_form_invariant ℚ).2.1 ⟨[1]⟩ ⟨[2]⟩ (by decide) (by decide),
   (c2_normal_form_invariant ℚ).2.2.1 ⟨[1]⟩ ⟨[2]⟩ (by decide) (by decide),
   (c2_normal_form_invariant ℚ).2.2.2 [(1, 2)] (by decide)⟩

/-- C3: `eval_at` (Horner's method) agrees with the naive reference sum
`∑ i, c_i * x^i` for every polynomial and scalar, and in particular
`eval_at(Polynomial([1,2,3]), 8) = 209`. -/
theorem c3_eval_at_agrees_with_naive_sum (R : Type) [CommRing R] :
    (∀ (p : Polynomial R) (x : R),
      p.eval_at x = ∑ i ∈ Finset.range p.coefs_.length, p.coefs_.getD i 0 * x ^ i) ∧
    (new [(1 : ℤ), 2, 3]).eval_at 8 = 209 :=
  ⟨fun p x => by rw [eval_at_eq_evalList, evalList_eq_sum], by decide⟩

/-- C4: `new` collapses any non-empty all-zero coefficient list to the
single-element zero sequence, and returns any single-element list
unchanged. -/
theorem c4_new_zero_collapse_and_singleton (R : Type) [Zero R] [DecidableEq R] :
    (∀ cs : List R, cs ≠ [] → (∀ c ∈ cs, c = 0) → new cs = ⟨[0]⟩) ∧
    (∀ c : R, new [c] = ⟨[c]⟩) :=
  ⟨fun cs h hz => new_all_zero cs h hz, fun c => new_singleton c⟩

theorem c4_witness :
    new [(0 : ℚ), 0, 0] = ⟨[0]⟩ ∧ new [(5 : ℚ)] = ⟨[5]⟩ :=
  ⟨(c4_new_zero_collapse_and_singleton ℚ).1 [0, 0, 0] (by decide) (by decide),
   (c4_new_zero_collapse_and_singleton ℚ).2 5⟩

/-- C5: multiplying any normalized polynomial by the zero polynomial (the
length-1 zero sequence) yields the zero polynomial. -/
theorem c5_mul_zero_absorbs (R : Type) [CommRing R] [DecidableEq R]
    (p : Polynomial R) (hp : normalized p) : p.mul ⟨[0]⟩ = ⟨[0]⟩ := by
  rw [mul_def]
  simp only [coefs_mk]
  apply new_all_zero
  · have h1 : 0 < p.coefs_.length := List.length_pos.2 hp.1
    intro hnil
    have h0 := congrArg List.length hnil
    rw [mulOuter_length, List.length_replicate] at h0
    simp only [List.length_nil, List.length_cons] at h0
    omega
  · intro c hc
    obtain ⟨m, hm, hcm⟩ := List.mem_iff_getElem.1 hc
    rw [← hcm, ← List.getD_eq_getElem _ 0 hm,
      mulOuter_getD p.coefs_ [0] p.coefs_.length _ (by simp) (Nat.le_refl _) m,
      getD_replicate_zero, zero_add]
    apply Finset.sum_eq_zero
    intro i _
    apply Finset.sum_eq_zero
    intro j _
    rw [getD_single_zero, mul_zero, ite_self]

theorem c5_witness : (⟨[1, 2]⟩ : Polynomial ℚ).mul ⟨[0]⟩ = ⟨[0]⟩ :=
  c5_mul_zero_absorbs ℚ ⟨[1, 2]⟩ (by decide)

/-- C6: adding a normalized polynomial to its coefficient-wise negation
collapses to the zero polynomial in normal form. -/
theorem c6_add_neg_collapses (R : Type) [CommRing R] [DecidableEq R]
    (p : Polynomial R) (hp : normalized p) :
    p.add ⟨p.coefs_.map (fun c => -c)⟩ = ⟨[0]⟩ := by
  rw [add_def]
  simp only [coefs_mk]
  apply new_all_zero
  · have h1 : 0 < p.coefs_.length := List.length_pos.2 hp.1
    intro hnil
    have h0 := congrArg List.length hnil
    simp only [List.length_map, List.length_range, List.length_nil] at h0
    omega
  · intro c hc
    obtain ⟨i, _, rfl⟩ := List.mem_map.1 hc
    rw [getD_map_neg]
    ring

theorem c6_witness : (⟨[3, 7]⟩ : Polynomial ℚ).add ⟨[(3 : ℚ), 7].map (fun c => -c)⟩ = ⟨[0]⟩ :=
  c6_add_neg_collapses ℚ ⟨[3, 7]⟩ (by decide)

/-- C7 (amended): `new` on the empty coefficient list does not underflow —
the counting loop never runs, so `cnt = 0 ≤ 0 = length` — and silently
returns a polynomial with an empty coefficient list, which violates the
normal-form invariant.  (The claim's asserted arithmetic underflow in
`length - count` does not occur.) -/
theorem c7_new_empty_no_underflow (R : Type) [Zero R] [DecidableEq R] :
    cntTrailing (List.reverse ([] : List R)) = 0 ∧
      new ([] : List R) = ⟨[]⟩ ∧ ¬normalized (new ([] : List R)) :=
  ⟨rfl, rfl, fun h => h.1 rfl⟩

theorem c7_counterexample :
    cntTrailing (List.reverse ([] : List ℚ)) = 0 ∧
      ([] : List ℚ).length - cntTrailing (List.reverse ([] : List ℚ)) = 0 ∧
      new ([] : List ℚ) = ⟨[]⟩ := ⟨rfl, rfl, rfl⟩

/-- C8: interpolation from an empty points list folds zero terms onto the
`new [0]` seed and returns the zero polynomial. -/
theorem c8_interpolate_empty_zero (K : Type) [Field K] [DecidableEq K] :
    interpolate_from ([] : List (K × K)) = ⟨[0]⟩ := rfl

/-- C10: evaluation is a ring homomorphism with respect to the
convolution-based `mul`: `eval_at (mul a b) x = eval_at a x * eval_at b x`
over any commutative-ring scalar. -/
theorem c10_eval_at_mul_hom (R : Type) [CommRing R] [DecidableEq R]
    (a b : Polynomial R) (x : R) :
    (a.mul b).eval_at x = a.eval_at x * b.eval_at x := by
  rw [eval_at_eq_evalList, eval_at_eq_evalList, eval_at_eq_evalList, evalList_mul_poly]

end Claims

end Polynomial

end Pimbook

namespace Pimbook

namespace Polynomial

variable {T : Type}

section Interpolation

theorem sum_map_range {M : Type} [AddCommMonoid M] (g : ℕ → M) :
    ∀ n : ℕ, ((List.range n).map g).sum = ∑ i ∈ Finset.range n, g i
  | 0 => rfl
  | n + 1 => by
    rw [List.range_succ, List.map_append, List.sum_append, Finset.sum_range_succ,
      sum_map_range g n]
    simp

/-- Evaluation of the `add`-fold in `interpolate_from`: the seed's value plus
the sum of the terms' values. -/
theorem evalList_foldl_add [CommRing T] [DecidableEq T] :
    ∀ (ts : List (Polynomial T)) (z : Polynomial T) (x : T),
      evalList ((ts.foldl (fun acc x => acc.add x) z).coefs_) x
        = evalList z.coefs_ x + (ts.map (fun t => evalList t.coefs_ x)).sum
  | [], _, _ => by simp
  | t :: ts, z, x => by
    simp only [List.foldl_cons, List.map_cons, List.sum_cons]
    rw [evalList_foldl_add ts (z.add t) x, evalList_add_poly]
    ring

/-- Evaluation of the linear-factor loop in `single_term_poly`: the starting
term's value times one linear-factor value per index other than `idx`. -/
theorem evalList_termLoop [Field T] [DecidableEq T] (points : List (T × T)) (idx : ℕ)
    (x : T) :
    ∀ (n : ℕ) (t : Polynomial T),
      evalList (((List.range n).foldl (fun term j =>
        if j = idx then term
        else term.mul (new [-(points.getD j (0, 0)).1 /
            ((points.getD idx (0, 0)).1 - (points.getD j (0, 0)).1),
          1 / ((points.getD idx (0, 0)).1 - (points.getD j (0, 0)).1)])) t).coefs_) x
        = evalList t.coefs_ x * ∏ j ∈ Finset.range n,
            if j = idx then 1
            else -(points.getD j (0, 0)).1 /
                  ((points.getD idx (0, 0)).1 - (points.getD j (0, 0)).1)
              + x * (1 / ((points.getD idx (0, 0)).1 - (points.getD j (0, 0)).1))
  | 0, t => by simp
  | n + 1, t => by
    rw [List.range_succ, List.foldl_append]
    simp only [List.foldl_cons, List.foldl_nil]
    rw [Finset.prod_range_succ, ← mul_assoc, ← evalList_termLoop points idx x n t]
    by_cases hn : n = idx
    · rw [if_pos hn, if_pos hn, mul_one]
    · rw [if_neg hn, if_neg hn, evalList_mul_poly, evalList_new]
      simp only [evalList_cons, evalList]
      ring

/-- Value of a Lagrange basis term of `single_term_poly` at `x`. -/
theorem evalList_single_term [Field T] [DecidableEq T] (points : List (T × T)) (idx : ℕ)
    (x : T) :
    evalList ((single_term_poly points idx).coefs_) x
      = (∏ j ∈ Finset.range points.length,
          if j = idx then 1
          else -(points.getD j (0, 0)).1 /
                ((points.getD idx (0, 0)).1 - (points.getD j (0, 0)).1)
            + x * (1 / ((points.getD idx (0, 0)).1 - (points.getD j (0, 0)).1)))
        * (points.getD idx (0, 0)).2 := by
  rw [single_term_def, evalList_mul_poly, evalList_termLoop points idx x points.length,
    evalList_new, evalList_new]
  simp only [evalList_cons, evalList]
  ring

/-- Value of `interpolate_from` at `x`: the sum of the Lagrange terms. -/
theorem evalList_interpolate [Field T] [DecidableEq T] (points : List (T × T)) (x : T) :
    evalList ((interpolate_from points).coefs_) x
      = ∑ idx ∈ Finset.range points.length,
          (∏ j ∈ Finset.range points.length,
            if j = idx then 1
            else -(points.getD j (0, 0)).1 /
                  ((points.getD idx (0, 0)).1 - (points.getD j (0, 0)).1)
              + x * (1 / ((points.getD idx (0, 0)).1 - (points.getD j (0, 0)).1)))
          * (points.getD idx (0, 0)).2 := by
  rw [interpolate_def, evalList_foldl_add, evalList_new]
  simp only [evalList_cons, evalList, List.map_map]
  rw [sum_map_range]
  have h := fun idx (_ : idx ∈ Finset.range points.length) =>
    evalList_single_term points idx x
  rw [Finset.sum_congr rfl fun idx hidx =>
    (show ((fun t => evalList t.coefs_ x) ∘ fun i => single_term_poly points i) idx
        = _ from h idx hidx)]
  ring

end Interpolation

section ClaimOne

/-- C1: for a non-empty points list with pairwise-distinct x-coordinates
over a field, the polynomial returned by `interpolate_from`, evaluated by
`eval_at` at each input `x_k`, gives back exactly `y_k`. -/
theorem c1_interpolate_eval_at_nodes (K : Type) [Field K] [DecidableEq K]
    (points : List (K × K)) (_hne : points ≠ [])
    (hdist : points.Pairwise (fun a b => a.1 ≠ b.1))
    (k : ℕ) (hk : k < points.length) :
    (interpolate_from points).eval_at (points.getD k (0, 0)).1
      = (points.getD k (0, 0)).2 := by
  have hd : ∀ i j, i < points.length → j < points.length → i ≠ j →
      (points.getD i (0, 0)).1 ≠ (points.getD j (0, 0)).1 := by
    intro i j hi hj hij
    rw [List.getD_eq_getElem points (0, 0) hi, List.getD_eq_getElem points (0, 0) hj]
    rcases Nat.lt_or_ge i j with h | h
    · exact (List.pairwise_iff_getElem.1 hdist) i j hi hj h
    · have hji : j < i := by omega
      exact ((List.pairwise_iff_getElem.1 hdist) j i hj hi hji).symm
  rw [eval_at_eq_evalList, evalList_interpolate]
  have hzero : ∀ idx ∈ Finset.range points.length, idx ≠ k →
      (∏ j ∈ Finset.range points.length,
        if j = idx then 1
        else -(points.getD j (0, 0)).1 /
              ((points.getD idx (0, 0)).1 - (points.getD j (0, 0)).1)
          + (points.getD k (0, 0)).1 *
              (1 / ((points.getD idx (0, 0)).1 - (points.getD j (0, 0)).1)))
        * (points.getD idx (0, 0)).2 = 0 := by
    intro idx _ hidxk
    apply mul_eq_zero_of_left
    apply Finset.prod_eq_zero (Finset.mem_range.2 hk)
    have hkidx : ¬k = idx := fun h => hidxk h.symm
    rw [if_neg hkidx, mul_one_div, div_add_div_same, neg_add_eq_sub, sub_self, zero_div]
  have hone : (∏ j ∈ Finset.range points.length,
      if j = k then 1
      else -(points.getD j (0, 0)).1 /
            ((points.getD k (0, 0)).1 - (points.getD j (0, 0)).1)
        + (points.getD k (0, 0)).1 *
            (1 / ((points.getD k (0, 0)).1 - (points.getD j (0, 0)).1))) = 1 := by
    apply Finset.prod_eq_one
    intro j hj
    by_cases hjk : j = k
    · rw [if_pos hjk]
    · have hnz : (points.getD k (0, 0)).1 - (points.getD j (0, 0)).1 ≠ 0 :=
        sub_ne_zero.2 (hd k j hk (Finset.mem_range.1 hj) fun h => hjk h.symm)
      rw [if_neg hjk, mul_one_div, div_add_div_same, neg_add_eq_sub, div_self hnz]
  rw [Finset.sum_eq_single k hzero fun h => absurd (Finset.mem_range.2 hk) h, hone, one_mul]

theorem c1_witness :
    ([((1 : ℚ), 325), (3, 2383), (5, 6609)] : List (ℚ × ℚ)) ≠ [] ∧
      (interpolate_from [((1 : ℚ), 325), (3, 2383), (5, 6609)]).eval_at
          (([((1 : ℚ), 325), (3, 2383), (5, 6609)]).getD 0 (0, 0)).1
        = (([((1 : ℚ), 325), (3, 2383), (5, 6609)]).getD 0 (0, 0)).2 :=
  ⟨by decide,
    c1_interpolate_eval_at_nodes ℚ [((1 : ℚ), 325), (3, 2383), (5, 6609)] (by decide)
      (by decide) 0 (by decide)⟩

end ClaimOne

end Polynomial

end Pimbook

namespace Pimbook

namespace Polynomial

variable {T : Type}

section DebugFormat

/-- The pieces the `Debug` impl writes between separators: `"({coef}x^{pow})"`. -/
def debugCore (f : T → List Char) (pc : ℕ × T) : List Char :=
  "(".toList ++ f pc.2 ++ "x^".toList ++ (toString pc.1).toList ++ ")".toList

/-- `joinSep sep [a, b, ..., z] = a ++ sep ++ b ++ sep ++ ... ++ sep ++ z`:
the separator appears between pieces only, never trailing. -/
def joinSep (sep : List Char) : List (List Char) → List Char
  | [] => []
  | [a] => a
  | a :: b :: t => a ++ sep ++ joinSep sep (b :: t)

theorem trimEndMatchesAux_succ (pat s : List Char) (fuel : ℕ) :
    trimEndMatchesAux pat (fuel + 1) s
      = if pat.isSuffixOf s then trimEndMatchesAux pat fuel (s.take (s.length - pat.length))
        else s := rfl

theorem sep_toList : " + ".toList = [' ', '+', ' '] := rfl

theorem rustDebugFmt_def (f : T → List Char) (p : Polynomial T) :
    rustDebugFmt f p
      = trimEndMatches " + ".toList ("Poly: ".toList ++ (p.coefs_.enum.map (fun pc =>
          "(".toList ++ f pc.2 ++ "x^".toList ++ (toString pc.1).toList ++ ")".toList ++
            " + ".toList)).flatten) := rfl

theorem flatten_map_append_sep (sep : List Char) :
    ∀ ps : List (List Char), ps ≠ [] →
      (ps.map (fun p => p ++ sep)).flatten = joinSep sep ps ++ sep
  | [a], _ => by simp [joinSep]
  | a :: b :: t, _ => by
    have ih := flatten_map_append_sep sep (b :: t) (by simp)
    simp only [List.map_cons, List.flatten_cons, joinSep] at ih ⊢
    rw [ih]
    simp [List.append_assoc]

theorem getLast?_joinSep (sep : List Char) :
    ∀ ps : List (List Char), (∀ p ∈ ps, p.getLast? = some ')') → ps ≠ [] →
      (joinSep sep ps).getLast? = some ')'
  | [a], h, _ => h a (by simp)
  | a :: b :: t, h, _ => by
    have ih := getLast?_joinSep sep (b :: t)
      (fun p hp => h p (List.mem_cons_of_mem a hp)) (by simp)
    simp only [joinSep, List.getLast?_append, ih]
    rfl

theorem getLast?_rparen (l r : List Char) (h : r.getLast? = some ')') :
    (l ++ r).getLast? = some ')' := by
  rw [List.getLast?_append, h]
  rfl

theorem getLast?_debugCore (f : T → List Char) (pc : ℕ × T) :
    (debugCore f pc).getLast? = some ')' := by
  unfold debugCore
  repeat apply getLast?_rparen
  rfl

/-- `trim_end_matches(" + ")` on a string of the shape `A ++ " + "`, where `A`
ends in a closing parenthesis: exactly one separator is removed. -/
theorem trimEndMatches_append_sep {A : List Char} (h : A.getLast? = some ')') :
    trimEndMatches " + ".toList (A ++ " + ".toList) = A := by
  have hsuf : (" + ".toList).isSuffixOf (A ++ " + ".toList) = true := by
    rw [List.isSuffixOf_iff_suffix]
    exact List.suffix_append A _
  have hnsuf : ¬(" + ".toList).isSuffixOf A = true := by
    rw [List.isSuffixOf_iff_suffix]
    rintro ⟨t, ht⟩
    rw [← ht, List.getLast?_append, sep_toList] at h
    simp at h
  have hlen3 : (" + ".toList).length = 3 := rfl
  have hlen : (A ++ " + ".toList).length = A.length + 3 := by
    rw [List.length_append, hlen3]
  have htake : (A ++ " + ".toList).take ((A ++ " + ".toList).length - (" + ".toList).length)
      = A := by
    rw [hlen, hlen3, Nat.add_sub_cancel]
    exact List.take_left A _
  unfold trimEndMatches
  rw [hlen, show A.length + 3 = (A.length + 2) + 1 by omega, trimEndMatchesAux_succ,
    if_pos hsuf, htake, show A.length + 2 = (A.length + 1) + 1 by omega,
    trimEndMatchesAux_succ, if_neg hnsuf]

/-- C9 (amended): the `Debug` representation of a polynomial with at least one
coefficient is exactly `"Poly: "` followed by the pieces `"(ci x^i)"` —
written with no space, `"({ci}x^{i})"` — joined by `" + "`, with the
trailing separator stripped from the final term. -/
theorem c9_debug_format (R : Type) (f : R → List Char) (c : R) (cs : List R) :
    rustDebugFmt f ⟨c :: cs⟩
      = "Poly: ".toList ++ joinSep " + ".toList ((c :: cs).enum.map (debugCore f)) := by
  rw [rustDebugFmt_def]
  simp only [coefs_mk]
  rw [show (fun pc : ℕ × R => "(".toList ++ f pc.2 ++ "x^".toList ++
      (toString pc.1).toList ++ ")".toList ++ " + ".toList)
      = (fun p => p ++ " + ".toList) ∘ debugCore f from
    funext fun pc => by simp [debugCore, List.append_assoc], ← List.map_map]
  have hne : (c :: cs).enum.map (debugCore f) ≠ [] := by
    simp [List.enum]
  rw [flatten_map_append_sep " + ".toList _ hne, ← List.append_assoc]
  apply trimEndMatches_append_sep
  rw [List.getLast?_append,
    getLast?_joinSep " + ".toList _ (fun p hp => by
      obtain ⟨pc, _, rfl⟩ := List.mem_map.1 hp
      exact getLast?_debugCore f pc) hne]
  rfl

theorem c9_counterexample :
    rustDebugFmt (fun n : ℤ => (toString n).toList) ⟨[1, 2]⟩ ≠ "(1 x^0) + (2 x^1)".toList ∧
      rustDebugFmt (fun n : ℤ => (toString n).toList) ⟨[1, 2]⟩
        = "Poly: (1x^0) + (2x^1)".toList := by
  constructor
  · decide
  · decide

end DebugFormat

end Polynomial

end Pimbook
